import Mathlib

/-!
Verification of the layout-reconstruction core of the `ocr_app` repository.

The Python source is shallowly embedded:
* `clean_text` (src/utils.py) over `List Char` / `String`;
* `ImageToWordConverter._format_text_structure`, `_detect_tables` and
  `process_image` (src/app.py);
* `WordDocumentGenerator.add_confidence_scores` (src/document_generator.py);
* `HandwritingOCREngine.extract_with_multiple_attempts` merge step
  (src/handwriting_ocr.py).

Pixel center coordinates are embedded as `Int`, confidences as `ℚ`.
Python `str.split()` / `str.strip()` / `" ".join` are embedded as the
character-list functions `splitWS`, `stripChars`, `joinWith` and the
string-level wrappers below.  Python's stable `sorted(..., key=x_center)`
is embedded as insertion sort by `x_center` (stable sorts agree).
-/

namespace OcrApp

/-- One maximal whitespace-separated token step used by `splitWS`
(the embedding of Python `str.split()` with no separator). -/
def splitStep (c : Char) (ts : List (List Char)) : List (List Char) :=
  if c.isWhitespace then [] :: ts
  else
    match ts with
    | [] => [[c]]
    | t :: rest => (c :: t) :: rest

/-- Embedding of Python `str.split()` (no argument): the maximal runs of
non-whitespace characters, in order, with empties dropped. -/
def splitWS (l : List Char) : List (List Char) :=
  (l.foldr splitStep []).filter (fun t => !t.isEmpty)

/-- Embedding of Python `sep.join(...)` at the character level. -/
def joinWith (sep : List Char) : List (List Char) → List Char
  | [] => []
  | [t] => t
  | t :: ts => t ++ sep ++ joinWith sep ts

/-- Embedding of Python `str.strip()` at the character level: drop leading
and trailing whitespace characters. -/
def stripChars (l : List Char) : List Char :=
  (((l.dropWhile Char.isWhitespace).reverse.dropWhile Char.isWhitespace).reverse)

/-- Character-level body of `clean_text` (src/utils.py): split on whitespace,
join with single spaces, strip.  The replacements dict in the source is dead
code (never applied). -/
def cleanChars (l : List Char) : List Char :=
  stripChars (joinWith [' '] (splitWS l))

/-- Embedding of `clean_text` (src/utils.py, lines 102-123): the early return
for falsy (empty) input, then whitespace normalization and strip. -/
def cleanText (text : String) : String :=
  if text = "" then ""
  else String.mk (stripChars (joinWith [' '] (splitWS text.data)))

/-- Embedding of Python `sep.join(...)` on strings. -/
def joinStr (sep : String) : List String → String
  | [] => ""
  | [s] => s
  | s :: ss => s ++ sep ++ joinStr sep ss

/-- Embedding of Python `str.strip()` on strings. -/
def pyStrip (s : String) : String :=
  String.mk (stripChars s.data)

/-- The common OCR text-fragment record (`text_blocks` entries): text,
center coordinates and confidence.  Bounding boxes are omitted; no claim
mentions them. -/
structure TextBlock where
  text : String
  x_center : Int
  y_center : Int
  confidence : ℚ
deriving DecidableEq, Repr

/-- Cleaned text of a fragment, as used by both reconstructors. -/
def txt (b : TextBlock) : String := cleanText b.text

/-- Scan state of `_format_text_structure` (src/app.py, lines 76-79):
the output string, the current paragraph buffer and the previous
fragment's `y_center`. -/
structure FormatState where
  formatted : String
  currentParagraph : List String
  lastY : Option Int
deriving Repr

/-- Loop body of `_format_text_structure` (src/app.py, lines 81-92): flush
the paragraph buffer on a vertical gap strictly greater than 30, then append
the cleaned text and record the fragment's `y_center`. -/
def formatStep (st : FormatState) (b : TextBlock) : FormatState :=
  let text := cleanText b.text
  let st1 :=
    match st.lastY with
    | none => st
    | some ly =>
      if 30 < |b.y_center - ly| then
        if st.currentParagraph.isEmpty then st
        else { st with
                formatted := st.formatted ++ joinStr " " st.currentParagraph ++ "\n\n",
                currentParagraph := [] }
      else st
  { st1 with currentParagraph := st1.currentParagraph ++ [text], lastY := some b.y_center }

/-- Embedding of `ImageToWordConverter._format_text_structure`
(src/app.py, lines 71-98): early return on an empty list, the scan,
the final flush, and the trailing `strip()`. -/
def formatTextStructure (blocks : List TextBlock) : String :=
  if blocks.isEmpty then ""
  else
    let st := blocks.foldl formatStep { formatted := "", currentParagraph := [], lastY := none }
    pyStrip (if st.currentParagraph.isEmpty then st.formatted
             else st.formatted ++ joinStr " " st.currentParagraph)

/-- Sorting a row left-to-right: embedding of
`sorted(current_row, key=lambda x: x['x_center'])` (src/app.py, lines 114, 119).
Python `sorted` is stable; insertion sort is the stable sort by `x_center`. -/
def sortRow (row : List TextBlock) : List TextBlock :=
  row.insertionSort (fun a b => a.x_center ≤ b.x_center)

/-- Scan state of the row-clustering phase of `_detect_tables`
(src/app.py, lines 103-106). -/
structure ClusterState where
  rows : List (List TextBlock)
  currentRow : List TextBlock
  currentY : Option Int
deriving Repr

/-- Loop body of the row-clustering phase (src/app.py, lines 108-116):
a block joins the current row when no reference y exists yet or it is
within 20 pixels of the reference; otherwise the row is closed (sorted by
`x_center`) and a new row opens with this block.  The reference y is set
only when absent, so it stays the first fragment's `y_center`. -/
def clusterStep (st : ClusterState) (b : TextBlock) : ClusterState :=
  match st.currentY with
  | none => { st with currentRow := st.currentRow ++ [b], currentY := some b.y_center }
  | some y =>
    if |b.y_center - y| < 20 then
      { st with currentRow := st.currentRow ++ [b] }
    else
      { rows := if st.currentRow.isEmpty then st.rows else st.rows ++ [sortRow st.currentRow],
        currentRow := [b],
        currentY := some b.y_center }

/-- Row-clustering phase of `_detect_tables` (src/app.py, lines 100-119):
the scan plus the final close of the open row. -/
def clusterRows (blocks : List TextBlock) : List (List TextBlock) :=
  let st := blocks.foldl clusterStep { rows := [], currentRow := [], currentY := none }
  if st.currentRow.isEmpty then st.rows else st.rows ++ [sortRow st.currentRow]

/-- Embedding of `ImageToWordConverter._detect_tables` (src/app.py,
lines 100-128): cluster into rows, keep rows with more than one fragment as
cell lists of cleaned texts, and return them only when more than one row
qualifies. -/
def detectTables (blocks : List TextBlock) : List (List String) :=
  let rows := clusterRows blocks
  let tables := rows.foldl
    (fun ts row => if 1 < row.length then ts ++ [row.map (fun b => cleanText b.text)] else ts) []
  if 1 < tables.length then tables else []

/-- Modelled from the spec paragraph algorithm description (spec.md section 4.1,
restated by the claim): the tail of the paragraph group containing `b`, paired
with the later groups, where a new paragraph starts exactly when the absolute
difference between a fragment's `y_center` and the previous fragment's
`y_center` is strictly greater than 30. -/
def chainCore (b : TextBlock) : List TextBlock → List TextBlock × List (List TextBlock)
  | [] => ([], [])
  | c :: rest =>
    let res := chainCore c rest
    if 30 < |c.y_center - b.y_center| then ([], (c :: res.1) :: res.2)
    else (c :: res.1, res.2)

/-- Spec-style paragraph grouping: split the fragment sequence into groups at
every consecutive pair whose `y_center` values differ by strictly more than 30. -/
def chainGroups : List TextBlock → List (List TextBlock)
  | [] => []
  | b :: rest => (b :: (chainCore b rest).1) :: (chainCore b rest).2

/-- Spec-style paragraph texts: each group's cleaned fragment texts joined by
single spaces. -/
def paragraphsSpec (blocks : List TextBlock) : List String :=
  (chainGroups blocks).map (fun g => joinStr " " (g.map (fun b => cleanText b.text)))

/-- Intermediate description of the paragraph scan: the paragraph buffers
produced from an open buffer `cur`, a previous y `py` and the remaining
fragments. -/
def chainFrom (py : Int) (cur : List String) : List TextBlock → List (List String)
  | [] => [cur]
  | b :: rest =>
    if 30 < |b.y_center - py| then cur :: chainFrom b.y_center [cleanText b.text] rest
    else chainFrom b.y_center (cur ++ [cleanText b.text]) rest

/-- Spec-style row clustering (spec.md section 4.2, restated by the claim):
a row opens at fragment `b`, takes every following fragment while its
`y_center` is strictly within 20 of the first fragment's `y_center` (the
row's fixed reference), is closed sorted by `x_center` ascending, and
clustering continues at the first fragment that did not match. -/
def clusterRowsSpec : List TextBlock → List (List TextBlock)
  | [] => []
  | b :: rest =>
    sortRow (b :: rest.takeWhile (fun x => decide (|x.y_center - b.y_center| < 20))) ::
      clusterRowsSpec (rest.dropWhile (fun x => decide (|x.y_center - b.y_center| < 20)))
termination_by l => l.length
decreasing_by
  exact Nat.lt_succ_of_le (List.dropWhile_sublist _).length_le

/-- Confidence summary as produced by `add_confidence_scores`
(src/document_generator.py, lines 199-207). -/
structure ConfStats where
  mean_confidence : ℚ
  high_count : Nat
  medium_count : Nat
  low_count : Nat
deriving DecidableEq, Repr

/-- Embedding of the aggregation in `WordDocumentGenerator.add_confidence_scores`
(src/document_generator.py, lines 192-207): the early return on an empty list
(before the division `sum / len` is ever formed) is modelled as `none`;
otherwise the mean and the three bucket counts are computed. -/
def aggregateConfidence (blocks : List TextBlock) : Option ConfStats :=
  if blocks.isEmpty then none
  else some
    { mean_confidence := (blocks.map (fun b => b.confidence)).sum / (blocks.length : ℚ)
      high_count := blocks.countP (fun b => decide ((0.8 : ℚ) < b.confidence))
      medium_count := blocks.countP
        (fun b => decide ((0.5 : ℚ) ≤ b.confidence ∧ b.confidence ≤ (0.8 : ℚ)))
      low_count := blocks.countP (fun b => decide (b.confidence < (0.5 : ℚ))) }

/-- Embedding of the dict update in `extract_with_multiple_attempts`
(src/handwriting_ocr.py, lines 129-132): store `r` under its text when the
text is absent, replace the stored entry when `r` has strictly higher
confidence. -/
def insertResult (r : TextBlock) : List TextBlock → List TextBlock
  | [] => [r]
  | b :: rest =>
    if b.text = r.text then (if b.confidence < r.confidence then r else b) :: rest
    else b :: insertResult r rest

/-- Embedding of the merge step of `extract_with_multiple_attempts`
(src/handwriting_ocr.py, lines 127-134): fold the concatenated attempt
results into the dedup dictionary and return its values. -/
def mergeResults (results : List TextBlock) : List TextBlock :=
  results.foldl (fun acc r => insertResult r acc) []

/-- The set of (text, confidence) pairs of a result list. -/
def pairSet (l : List TextBlock) : Finset (String × ℚ) :=
  (l.map (fun b => (b.text, b.confidence))).toFinset

/-- Specification predicate for the merge: `c` is the highest confidence
attained by text `t` in `l`. -/
def IsBest (l : List TextBlock) (t : String) (c : ℚ) : Prop :=
  (∃ b ∈ l, b.text = t ∧ b.confidence = c) ∧ ∀ b ∈ l, b.text = t → b.confidence ≤ c

/-- The processing-result record of `process_image` (src/app.py, lines 42-69).
The wall-clock `processing_time` field is not embedded. -/
structure ProcessResult where
  text_blocks : List TextBlock
  formatted_text : String
  tables : List (List String)
  success : Bool
  error : Option String
deriving DecidableEq, Repr

/-- Embedding of `ImageToWordConverter.process_image` (src/app.py, lines
28-69) after OCR extraction: the extracted fragment list stands in for the
image (enhancement and OCR are external collaborators). -/
def process_image (text_blocks : List TextBlock) (detect_tables : Bool) : ProcessResult :=
  if text_blocks.isEmpty then
    { text_blocks := []
      formatted_text := ""
      tables := []
      success := false
      error := some "No text detected in image" }
  else
    { text_blocks := text_blocks
      formatted_text := formatTextStructure text_blocks
      tables := if detect_tables then detectTables text_blocks else []
      success := true
      error := none }

/-- The closing step of `_format_text_structure` (src/app.py, lines 94-96):
append the last open paragraph. -/
def finishFormat (st : FormatState) : String :=
  if st.currentParagraph.isEmpty then st.formatted
  else st.formatted ++ joinStr " " st.currentParagraph

/-- The closing step of the row clustering (src/app.py, lines 118-119):
append the last open row, sorted. -/
def finishCluster (st : ClusterState) : List (List TextBlock) :=
  if st.currentRow.isEmpty then st.rows else st.rows ++ [sortRow st.currentRow]

/-! Character and string level lemmas about the `clean_text` embedding. -/

theorem data_append (a b : String) : (a ++ b).data = a.data ++ b.data := by
  cases a; cases b; rfl

theorem mk_data (s : String) : String.mk s.data = s := by
  cases s; rfl

theorem data_eq_nil_iff (s : String) : s.data = [] ↔ s = "" := by
  constructor
  · intro h
    have := mk_data s
    rw [h] at this
    exact this.symm
  · intro h
    subst h
    rfl

theorem joinStr_data (sep : String) (ss : List String) :
    (joinStr sep ss).data = joinWith sep.data (ss.map String.data) := by
  induction ss with
  | nil => rfl
  | cons s ss ih =>
    cases ss with
    | nil => rfl
    | cons s2 ss2 =>
      simp [joinStr, joinWith, data_append, ih, List.append_assoc]

theorem splitStep_non_ws (c : Char) (ts : List (List Char))
    (h : ∀ t ∈ ts, ∀ d ∈ t, d.isWhitespace = false) :
    ∀ t ∈ splitStep c ts, ∀ d ∈ t, d.isWhitespace = false := by
  intro t ht d hd
  cases hc : c.isWhitespace with
  | true =>
    simp only [splitStep, hc, if_true] at ht
    rcases List.mem_cons.mp ht with rfl | h1
    · cases hd
    · exact h t h1 d hd
  | false =>
    simp only [splitStep, hc, Bool.false_eq_true, if_false] at ht
    cases ts with
    | nil =>
      rcases List.mem_singleton.mp ht with rfl
      rcases List.mem_singleton.mp hd with rfl
      exact hc
    | cons t0 rest =>
      rcases List.mem_cons.mp ht with rfl | h1
      · rcases List.mem_cons.mp hd with rfl | h2
        · exact hc
        · exact h t0 (List.mem_cons_self _ _) d h2
      · exact h t (List.mem_cons_of_mem _ h1) d hd

theorem foldr_splitStep_non_ws (l : List Char) :
    ∀ t ∈ l.foldr splitStep [], ∀ d ∈ t, d.isWhitespace = false := by
  induction l with
  | nil => intro t ht; cases ht
  | cons c rest ih => exact splitStep_non_ws c _ ih

theorem splitWS_non_ws (l : List Char) :
    ∀ t ∈ splitWS l, t ≠ [] ∧ ∀ d ∈ t, d.isWhitespace = false := by
  intro t ht
  unfold splitWS at ht
  have hmem := List.mem_of_mem_filter ht
  have hne := List.of_mem_filter ht
  refine ⟨?_, foldr_splitStep_non_ws l t hmem⟩
  intro hnil
  subst hnil
  simp at hne

theorem foldr_splitStep_ws_cons (c : Char) (r : List Char) (hc : c.isWhitespace = true) :
    (c :: r).foldr splitStep [] = [] :: r.foldr splitStep [] := by
  simp [List.foldr_cons, splitStep, hc]

theorem foldr_splitStep_token_append (t : List Char) (r : List Char)
    (htne : t ≠ []) (hws : ∀ d ∈ t, d.isWhitespace = false) :
    (t ++ r).foldr splitStep [] =
      match r.foldr splitStep [] with
      | [] => [t]
      | h :: rest => (t ++ h) :: rest := by
  induction t with
  | nil => exact absurd rfl htne
  | cons c t2 ih =>
    have hc : c.isWhitespace = false := hws c (List.mem_cons_self _ _)
    have hstep : ((c :: t2) ++ r).foldr splitStep [] =
        splitStep c ((t2 ++ r).foldr splitStep []) := rfl
    cases t2 with
    | nil =>
      rw [hstep]
      cases hr : r.foldr splitStep [] with
      | nil => simp [splitStep, hc, hr]
      | cons h rest => simp [splitStep, hc, hr]
    | cons c2 t3 =>
      have ht2 : (c2 :: t3 : List Char) ≠ [] := List.cons_ne_nil _ _
      have hws2 : ∀ d ∈ (c2 :: t3 : List Char), d.isWhitespace = false :=
        fun d hd => hws d (List.mem_cons_of_mem _ hd)
      rw [hstep, ih ht2 hws2]
      cases hr : r.foldr splitStep [] with
      | nil => simp [splitStep, hc]
      | cons h rest => simp [splitStep, hc]

theorem joinWith_ne_nil (ts : List (List Char)) (hne : ts ≠ [])
    (hts : ∀ t ∈ ts, t ≠ []) : joinWith [' '] ts ≠ [] := by
  cases ts with
  | nil => exact absurd rfl hne
  | cons t rest =>
    have ht : t ≠ [] := hts t (List.mem_cons_self _ _)
    cases rest with
    | nil => simpa [joinWith] using ht
    | cons t2 rest2 =>
      simp only [joinWith]
      exact List.append_ne_nil_of_left_ne_nil
        (List.append_ne_nil_of_left_ne_nil ht [' ']) _

theorem foldr_splitStep_join (ts : List (List Char)) (hne : ts ≠ [])
    (hts : ∀ t ∈ ts, t ≠ [] ∧ ∀ d ∈ t, d.isWhitespace = false) :
    (joinWith [' '] ts).foldr splitStep [] = ts := by
  induction ts with
  | nil => exact absurd rfl hne
  | cons t rest ih =>
    obtain ⟨ht, hws⟩ := hts t (List.mem_cons_self _ _)
    cases rest with
    | nil =>
      show (joinWith [' '] [t]).foldr splitStep [] = [t]
      have : joinWith [' '] [t] = t ++ [] := by simp [joinWith]
      rw [this, foldr_splitStep_token_append t [] ht hws]
      rfl
    | cons t2 rest2 =>
      have hrec := ih (List.cons_ne_nil _ _)
        (fun u hu => hts u (List.mem_cons_of_mem _ hu))
      have hjoin : joinWith [' '] (t :: t2 :: rest2) =
          t ++ (' ' :: joinWith [' '] (t2 :: rest2)) := by
        simp [joinWith]
      rw [hjoin, foldr_splitStep_token_append t _ ht hws,
        foldr_splitStep_ws_cons ' ' _ (by decide), hrec]
      simp

theorem splitWS_join (ts : List (List Char)) (hne : ts ≠ [])
    (hts : ∀ t ∈ ts, t ≠ [] ∧ ∀ d ∈ t, d.isWhitespace = false) :
    splitWS (joinWith [' '] ts) = ts := by
  unfold splitWS
  rw [foldr_splitStep_join ts hne hts]
  exact List.filter_eq_self.mpr (fun t ht => by
    simpa using (hts t ht).1)

theorem splitWS_nil : splitWS [] = [] := rfl

theorem data_inj {a b : String} (h : a.data = b.data) : a = b := by
  rw [← mk_data a, ← mk_data b, h]

theorem dropWhile_ws_of_head (l : List Char)
    (h : ∀ c, l.head? = some c → c.isWhitespace = false) :
    l.dropWhile Char.isWhitespace = l := by
  cases l with
  | nil => rfl
  | cons c r =>
    have hc : c.isWhitespace = false := h c rfl
    simp [List.dropWhile_cons, hc]

theorem stripChars_eq_self (l : List Char)
    (hh : ∀ c, l.head? = some c → c.isWhitespace = false)
    (hl : ∀ c, l.getLast? = some c → c.isWhitespace = false) :
    stripChars l = l := by
  unfold stripChars
  rw [dropWhile_ws_of_head l hh]
  cases hrev : l.reverse with
  | nil => simp [List.reverse_eq_nil_iff.mp hrev]
  | cons d rr =>
    have hd : l.getLast? = some d := by
      rw [← List.head?_reverse, hrev]; rfl
    have : d.isWhitespace = false := hl d hd
    rw [List.dropWhile_cons]
    simp only [this, Bool.false_eq_true, if_false]
    rw [← hrev, List.reverse_reverse]

theorem joinWith_head? (t : List Char) (ts : List (List Char)) (ht : t ≠ []) :
    (joinWith [' '] (t :: ts)).head? = t.head? := by
  cases ts with
  | nil => rfl
  | cons t2 rest =>
    cases t with
    | nil => exact absurd rfl ht
    | cons c tr => simp [joinWith]

theorem getLast?_of_ne_nil {α : Type} (l : List α) (h : l ≠ []) :
    ∃ a, l.getLast? = some a := by
  cases l with
  | nil => exact absurd rfl h
  | cons x xs => exact ⟨(x :: xs).getLast (List.cons_ne_nil _ _), List.getLast?_eq_getLast _ _⟩

theorem joinWith_getLast? : ∀ (ts : List (List Char)) (t : List Char), t ≠ [] →
    (∀ u ∈ ts, u ≠ []) → (joinWith [' '] (ts ++ [t])).getLast? = t.getLast? := by
  intro ts
  induction ts with
  | nil => intro t ht hts; rfl
  | cons u ts2 ih =>
    intro t ht hts
    have hu : u ≠ [] := hts u (List.mem_cons_self _ _)
    have hts2 : ∀ v ∈ ts2, v ≠ [] := fun v hv => hts v (List.mem_cons_of_mem _ hv)
    have hne : ts2 ++ [t] ≠ [] := by simp
    have hjoin : joinWith [' '] (u :: (ts2 ++ [t])) =
        (u ++ [' ']) ++ joinWith [' '] (ts2 ++ [t]) := by
      cases h2 : ts2 ++ [t] with
      | nil => exact absurd h2 hne
      | cons v vs => simp [joinWith, List.append_assoc]
    rw [List.cons_append, hjoin, List.getLast?_append]
    have hjne : joinWith [' '] (ts2 ++ [t]) ≠ [] := by
      refine joinWith_ne_nil _ hne ?_
      intro v hv
      rcases List.mem_append.mp hv with h1 | h1
      · exact hts2 v h1
      · rcases List.mem_singleton.mp h1 with rfl; exact ht
    obtain ⟨a, ha⟩ := getLast?_of_ne_nil _ hjne
    rw [ha, show (Option.some a).or ((u ++ [' ']).getLast?) = some a from rfl, ← ha]
    exact ih t ht hts2

theorem stripChars_joinWith (ts : List (List Char)) (hne : ts ≠ [])
    (hts : ∀ t ∈ ts, t ≠ [] ∧ ∀ d ∈ t, d.isWhitespace = false) :
    stripChars (joinWith [' '] ts) = joinWith [' '] ts := by
  cases ts with
  | nil => exact absurd rfl hne
  | cons t rest =>
    refine stripChars_eq_self _ ?_ ?_
    · intro c hc
      rw [joinWith_head? t rest (hts t (List.mem_cons_self _ _)).1] at hc
      exact (hts t (List.mem_cons_self _ _)).2 c (List.mem_of_mem_head? hc)
    · intro c hc
      have hne2 : (t :: rest : List (List Char)) ≠ [] := List.cons_ne_nil _ _
      have hsplit : (t :: rest).dropLast ++ [(t :: rest).getLast hne2] = t :: rest :=
        List.dropLast_append_getLast hne2
      have hlast_mem : (t :: rest).getLast hne2 ∈ t :: rest := List.getLast_mem hne2
      have hlg := joinWith_getLast? (t :: rest).dropLast ((t :: rest).getLast hne2)
        (hts _ hlast_mem).1
        (fun v hv => (hts v (List.dropLast_subset _ hv)).1)
      rw [hsplit] at hlg
      rw [hlg] at hc
      exact (hts _ hlast_mem).2 c (List.mem_of_mem_getLast? hc)

theorem cleanText_data (s : String) : (cleanText s).data = cleanChars s.data := by
  unfold cleanText
  by_cases h : s = ""
  · subst h; rfl
  · simp only [h, if_false]
    rfl

theorem cleanChars_eq_join (l : List Char) (h : splitWS l ≠ []) :
    cleanChars l = joinWith [' '] (splitWS l) := by
  unfold cleanChars
  exact stripChars_joinWith _ h (splitWS_non_ws l)

theorem cleanChars_of_splitWS_nil (l : List Char) (h : splitWS l = []) :
    cleanChars l = [] := by
  unfold cleanChars
  rw [h]
  rfl

theorem stripChars_cleanChars (l : List Char) :
    stripChars (cleanChars l) = cleanChars l := by
  by_cases h : splitWS l = []
  · rw [cleanChars_of_splitWS_nil l h]; rfl
  · rw [cleanChars_eq_join l h]
    exact stripChars_joinWith _ h (splitWS_non_ws l)

theorem pyStrip_cleanText (s : String) : pyStrip (cleanText s) = cleanText s := by
  refine data_inj ?_
  show stripChars (cleanText s).data = (cleanText s).data
  rw [cleanText_data, stripChars_cleanChars]

theorem splitWS_ne_nil_of_cleanText_ne (s : String) (h : cleanText s ≠ "") :
    splitWS s.data ≠ [] := by
  intro hnil
  apply h
  refine data_inj ?_
  rw [cleanText_data, cleanChars_of_splitWS_nil _ hnil]

/-! Lemmas relating the paragraph scan of `_format_text_structure` to the
spec-style grouping `chainGroups`. -/

theorem str_append_assoc (a b c : String) : a ++ b ++ c = a ++ (b ++ c) := by
  refine data_inj ?_
  simp [data_append, List.append_assoc]

theorem str_nil_append (s : String) : "" ++ s = s := by
  refine data_inj ?_
  simp [data_append]

theorem joinStr_cons_of_ne (sep s : String) (ss : List String) (h : ss ≠ []) :
    joinStr sep (s :: ss) = s ++ sep ++ joinStr sep ss := by
  cases ss with
  | nil => exact absurd rfl h
  | cons s2 ss2 => rfl

theorem chainFrom_cons (py : Int) (cur : List String) (b : TextBlock)
    (rest : List TextBlock) :
    chainFrom py cur (b :: rest) =
      if 30 < |b.y_center - py| then
        cur :: chainFrom b.y_center [cleanText b.text] rest
      else chainFrom b.y_center (cur ++ [cleanText b.text]) rest := rfl

theorem chainFrom_ne_nil (l : List TextBlock) (py : Int) (cur : List String) :
    chainFrom py cur l ≠ [] := by
  induction l generalizing py cur with
  | nil => exact List.cons_ne_nil _ _
  | cons b rest ih =>
    unfold chainFrom
    by_cases h : 30 < |b.y_center - py|
    · simp only [h, if_true]
      exact List.cons_ne_nil _ _
    · simp only [h, if_false]
      exact ih _ _

theorem formatStep_some (fmt : String) (cur : List String) (py : Int) (b : TextBlock)
    (hcur : cur ≠ []) :
    formatStep { formatted := fmt, currentParagraph := cur, lastY := some py } b =
      if 30 < |b.y_center - py| then
        { formatted := fmt ++ joinStr " " cur ++ "\n\n",
          currentParagraph := [cleanText b.text], lastY := some b.y_center }
      else
        { formatted := fmt, currentParagraph := cur ++ [cleanText b.text],
          lastY := some b.y_center } := by
  unfold formatStep
  have hcur2 : cur.isEmpty = false := by
    cases cur with
    | nil => exact absurd rfl hcur
    | cons x xs => rfl
  by_cases h : 30 < |b.y_center - py|
  · simp [h, hcur2]
  · simp [h]

theorem foldl_formatStep_chainFrom (l : List TextBlock) (fmt : String)
    (cur : List String) (py : Int) (hcur : cur ≠ []) :
    finishFormat (l.foldl formatStep
        { formatted := fmt, currentParagraph := cur, lastY := some py }) =
      fmt ++ joinStr "\n\n" ((chainFrom py cur l).map (joinStr " ")) := by
  induction l generalizing fmt cur py with
  | nil =>
    unfold finishFormat
    have hcur2 : cur.isEmpty = false := by
      cases cur with
      | nil => exact absurd rfl hcur
      | cons x xs => rfl
    simp only [List.foldl_nil, hcur2, Bool.false_eq_true, if_false]
    show fmt ++ joinStr " " cur = fmt ++ joinStr "\n\n" [joinStr " " cur]
    rfl
  | cons b rest ih =>
    rw [List.foldl_cons, formatStep_some fmt cur py b hcur]
    by_cases h : 30 < |b.y_center - py|
    · simp only [h, if_true]
      rw [ih _ _ _ (List.cons_ne_nil _ _), chainFrom_cons]
      simp only [h, if_true, List.map_cons]
      rw [joinStr_cons_of_ne _ _ _ (by
        intro hmap
        exact chainFrom_ne_nil rest b.y_center [cleanText b.text]
          (List.map_eq_nil_iff.mp hmap))]
      simp [str_append_assoc]
    · simp only [h, if_false]
      rw [ih _ _ _ (by simp), chainFrom_cons]
      simp only [h, if_false]

theorem chainFrom_eq_chainCore (l : List TextBlock) (b : TextBlock) (cur : List String) :
    chainFrom b.y_center cur l =
      (cur ++ (chainCore b l).1.map (fun x => cleanText x.text)) ::
        (chainCore b l).2.map (fun g => g.map (fun x => cleanText x.text)) := by
  induction l generalizing b cur with
  | nil => simp [chainFrom, chainCore]
  | cons c rest ih =>
    unfold chainFrom chainCore
    by_cases h : 30 < |c.y_center - b.y_center|
    · simp only [h, if_true]
      rw [ih c [cleanText c.text]]
      simp
    · simp only [h, if_false]
      rw [ih c (cur ++ [cleanText c.text])]
      simp

theorem formatTextStructure_eq_spec (blocks : List TextBlock) :
    formatTextStructure blocks = pyStrip (joinStr "\n\n" (paragraphsSpec blocks)) := by
  cases blocks with
  | nil => rfl
  | cons b rest =>
    show pyStrip (finishFormat ((b :: rest).foldl formatStep
        { formatted := "", currentParagraph := [], lastY := none })) = _
    have hstep : formatStep { formatted := "", currentParagraph := [], lastY := none } b =
        { formatted := "", currentParagraph := [cleanText b.text],
          lastY := some b.y_center } := rfl
    rw [List.foldl_cons, hstep,
      foldl_formatStep_chainFrom rest "" [cleanText b.text] b.y_center
        (List.cons_ne_nil _ _),
      str_nil_append, chainFrom_eq_chainCore rest b [cleanText b.text]]
    unfold paragraphsSpec chainGroups
    simp [List.map_map, Function.comp_def]

/-! Lemmas relating the row clustering of `_detect_tables` to the spec-style
clustering `clusterRowsSpec`. -/

theorem clusterStep_some (rows : List (List TextBlock)) (cur : List TextBlock)
    (y : Int) (b : TextBlock) (hcur : cur ≠ []) :
    clusterStep { rows := rows, currentRow := cur, currentY := some y } b =
      if |b.y_center - y| < 20 then
        { rows := rows, currentRow := cur ++ [b], currentY := some y }
      else
        { rows := rows ++ [sortRow cur], currentRow := [b], currentY := some b.y_center } := by
  unfold clusterStep
  have hcur2 : cur.isEmpty = false := by
    cases cur with
    | nil => exact absurd rfl hcur
    | cons x xs => rfl
  by_cases h : |b.y_center - y| < 20
  · simp [h]
  · simp [h, hcur2]

theorem clusterRowsSpec_cons (b : TextBlock) (rest : List TextBlock) :
    clusterRowsSpec (b :: rest) =
      sortRow (b :: rest.takeWhile (fun x => decide (|x.y_center - b.y_center| < 20))) ::
        clusterRowsSpec
          (rest.dropWhile (fun x => decide (|x.y_center - b.y_center| < 20))) := by
  rw [clusterRowsSpec]

theorem foldl_clusterStep_spec (l : List TextBlock) (rows : List (List TextBlock))
    (cur : List TextBlock) (y : Int) (hcur : cur ≠ []) :
    finishCluster (l.foldl clusterStep
        { rows := rows, currentRow := cur, currentY := some y }) =
      rows ++ sortRow (cur ++ l.takeWhile (fun x => decide (|x.y_center - y| < 20))) ::
        clusterRowsSpec (l.dropWhile (fun x => decide (|x.y_center - y| < 20))) := by
  induction l generalizing rows cur y with
  | nil =>
    unfold finishCluster
    have hcur2 : cur.isEmpty = false := by
      cases cur with
      | nil => exact absurd rfl hcur
      | cons x xs => rfl
    simp [hcur2, clusterRowsSpec]
  | cons b rest ih =>
    rw [List.foldl_cons, clusterStep_some rows cur y b hcur]
    by_cases h : |b.y_center - y| < 20
    · simp only [h, if_true]
      rw [ih _ _ _ (by simp)]
      simp [List.takeWhile_cons, List.dropWhile_cons, h, List.append_assoc]
    · simp only [h, if_false]
      rw [ih _ _ _ (List.cons_ne_nil _ _)]
      simp only [List.takeWhile_cons, List.dropWhile_cons, h, decide_eq_true_eq,
        if_false, if_neg, List.append_nil, not_false_iff]
      rw [clusterRowsSpec_cons]
      simp [List.append_assoc]

theorem clusterRows_eq_spec (blocks : List TextBlock) :
    clusterRows blocks = clusterRowsSpec blocks := by
  cases blocks with
  | nil => rw [clusterRowsSpec]; rfl
  | cons b rest =>
    show finishCluster ((b :: rest).foldl clusterStep
        { rows := [], currentRow := [], currentY := none }) = _
    have hstep : clusterStep { rows := [], currentRow := [], currentY := none } b =
        { rows := [], currentRow := [b], currentY := some b.y_center } := rfl
    rw [List.foldl_cons, hstep,
      foldl_clusterStep_spec rest [] [b] b.y_center (List.cons_ne_nil _ _),
      clusterRowsSpec_cons]
    simp

theorem foldl_tables_filter (rows : List (List TextBlock)) (acc : List (List String)) :
    rows.foldl (fun ts row =>
        if 1 < row.length then ts ++ [row.map (fun b => cleanText b.text)] else ts) acc =
      acc ++ (rows.filter (fun row => decide (1 < row.length))).map
        (fun row => row.map (fun b => cleanText b.text)) := by
  induction rows generalizing acc with
  | nil => simp
  | cons row rest ih =>
    by_cases h : 1 < row.length
    · simp only [List.foldl_cons, h, if_true, List.filter_cons]
      rw [ih]
      simp [h, List.append_assoc]
    · simp only [List.foldl_cons, h, if_false, List.filter_cons]
      rw [ih]
      simp [h]

theorem clusterRowsSpec_flatten_perm_aux :
    ∀ (n : Nat) (l : List TextBlock), l.length ≤ n →
      ((clusterRowsSpec l).flatten).Perm l := by
  intro n
  induction n with
  | zero =>
    intro l hl
    have : l = [] := List.length_eq_zero.mp (Nat.le_zero.mp hl)
    subst this
    rw [clusterRowsSpec]
    rfl
  | succ n ih =>
    intro l hl
    cases l with
    | nil => rw [clusterRowsSpec]; rfl
    | cons b rest =>
      rw [clusterRowsSpec_cons, List.flatten_cons]
      have h1 : (sortRow (b :: rest.takeWhile
          (fun x => decide (|x.y_center - b.y_center| < 20)))).Perm
            (b :: rest.takeWhile (fun x => decide (|x.y_center - b.y_center| < 20))) :=
        List.perm_insertionSort _ _
      have h2 : ((clusterRowsSpec (rest.dropWhile
          (fun x => decide (|x.y_center - b.y_center| < 20)))).flatten).Perm
            (rest.dropWhile (fun x => decide (|x.y_center - b.y_center| < 20))) := by
        refine ih _ (le_trans (List.dropWhile_sublist _).length_le ?_)
        exact Nat.le_of_succ_le_succ hl
      refine (h1.append h2).trans ?_
      rw [List.cons_append, List.takeWhile_append_dropWhile]

theorem clusterRows_flatten_perm (blocks : List TextBlock) :
    ((clusterRows blocks).flatten).Perm blocks := by
  rw [clusterRows_eq_spec]
  exact clusterRowsSpec_flatten_perm_aux blocks.length blocks le_rfl

/-! Lemmas about the multi-attempt merge of `extract_with_multiple_attempts`. -/

theorem mem_pairSet (l : List TextBlock) (t : String) (c : ℚ) :
    (t, c) ∈ pairSet l ↔ ∃ b ∈ l, b.text = t ∧ b.confidence = c := by
  unfold pairSet
  rw [List.mem_toFinset, List.mem_map]
  constructor
  · rintro ⟨b, hb, heq⟩
    obtain ⟨h1, h2⟩ := Prod.mk.injEq .. ▸ heq
    exact ⟨b, hb, h1, h2⟩
  · rintro ⟨b, hb, h1, h2⟩
    exact ⟨b, hb, by rw [h1, h2]⟩

theorem isBest_mono (X Y L : List TextBlock)
    (hXY : ∀ b ∈ X, ∃ b2 ∈ Y, b2.text = b.text ∧ b.confidence ≤ b2.confidence)
    (hYX : ∀ b ∈ Y, ∃ b2 ∈ X, b2.text = b.text ∧ b.confidence ≤ b2.confidence)
    (t : String) (c : ℚ) (h : IsBest (X ++ L) t c) : IsBest (Y ++ L) t c := by
  obtain ⟨⟨b, hb, hbt, hbc⟩, hub⟩ := h
  have hubY : ∀ b2 ∈ Y ++ L, b2.text = t → b2.confidence ≤ c := by
    intro b2 hb2 ht2
    rcases List.mem_append.mp hb2 with h2 | h2
    · obtain ⟨b3, hb3, htext, hconf⟩ := hYX b2 h2
      exact le_trans hconf
        (hub b3 (List.mem_append_left _ hb3) (htext.trans ht2))
    · exact hub b2 (List.mem_append_right _ h2) ht2
  refine ⟨?_, hubY⟩
  rcases List.mem_append.mp hb with h2 | h2
  · obtain ⟨b2, hb2, htext, hconf⟩ := hXY b h2
    refine ⟨b2, List.mem_append_left _ hb2, htext.trans hbt, le_antisymm ?_ ?_⟩
    · exact hubY b2 (List.mem_append_left _ hb2) (htext.trans hbt)
    · rw [← hbc]; exact hconf
  · exact ⟨b, List.mem_append_right _ h2, hbt, hbc⟩

theorem isBest_append_congr (X Y L : List TextBlock)
    (hXY : ∀ b ∈ X, ∃ b2 ∈ Y, b2.text = b.text ∧ b.confidence ≤ b2.confidence)
    (hYX : ∀ b ∈ Y, ∃ b2 ∈ X, b2.text = b.text ∧ b.confidence ≤ b2.confidence)
    (t : String) (c : ℚ) : IsBest (X ++ L) t c ↔ IsBest (Y ++ L) t c :=
  ⟨isBest_mono X Y L hXY hYX t c, isBest_mono Y X L hYX hXY t c⟩

theorem isBest_perm {l l2 : List TextBlock} (h : l.Perm l2) (t : String) (c : ℚ) :
    IsBest l t c ↔ IsBest l2 t c := by
  unfold IsBest
  constructor
  · rintro ⟨⟨b, hb, hprop⟩, hub⟩
    exact ⟨⟨b, h.mem_iff.mp hb, hprop⟩, fun b2 hb2 => hub b2 (h.mem_iff.mpr hb2)⟩
  · rintro ⟨⟨b, hb, hprop⟩, hub⟩
    exact ⟨⟨b, h.mem_iff.mpr hb, hprop⟩, fun b2 hb2 => hub b2 (h.mem_iff.mp hb2)⟩

theorem insertResult_mem (r : TextBlock) (acc : List TextBlock) :
    ∀ b ∈ insertResult r acc, b ∈ acc ∨ b = r := by
  induction acc with
  | nil =>
    intro b hb
    exact Or.inr (List.mem_singleton.mp hb)
  | cons b0 rest ih =>
    intro b hb
    unfold insertResult at hb
    by_cases ht : b0.text = r.text
    · simp only [ht, if_true] at hb
      rcases List.mem_cons.mp hb with h1 | h1
      · by_cases hc : b0.confidence < r.confidence
        · simp only [hc, if_true] at h1
          exact Or.inr h1
        · simp only [hc, if_false] at h1
          exact Or.inl (h1 ▸ List.mem_cons_self _ _)
      · exact Or.inl (List.mem_cons_of_mem _ h1)
    · simp only [ht, if_false] at hb
      rcases List.mem_cons.mp hb with h1 | h1
      · exact Or.inl (h1 ▸ List.mem_cons_self _ _)
      · rcases ih b h1 with h2 | h2
        · exact Or.inl (List.mem_cons_of_mem _ h2)
        · exact Or.inr h2

theorem insertResult_dominates (r : TextBlock) (acc : List TextBlock) :
    ∀ b, b ∈ acc ∨ b = r →
      ∃ b2 ∈ insertResult r acc, b2.text = b.text ∧ b.confidence ≤ b2.confidence := by
  induction acc with
  | nil =>
    intro b hb
    rcases hb with h | rfl
    · cases h
    · exact ⟨b, List.mem_singleton_self _, rfl, le_rfl⟩
  | cons b0 rest ih =>
    intro b hb
    unfold insertResult
    by_cases ht : b0.text = r.text
    · simp only [ht, if_true]
      set e := if b0.confidence < r.confidence then r else b0 with he
      have het : e.text = r.text := by
        rw [he]
        by_cases hc : b0.confidence < r.confidence
        · simp [hc]
        · simp [hc, ht]
      have hec0 : b0.confidence ≤ e.confidence := by
        rw [he]
        by_cases hc : b0.confidence < r.confidence
        · simp only [hc, if_true]; exact le_of_lt hc
        · simp [hc]
      have hecr : r.confidence ≤ e.confidence := by
        rw [he]
        by_cases hc : b0.confidence < r.confidence
        · simp [hc]
        · simp only [hc, if_false]; exact le_of_not_lt hc
      rcases hb with h | rfl
      · rcases List.mem_cons.mp h with rfl | h1
        · exact ⟨e, List.mem_cons_self _ _, het.trans ht.symm, hec0⟩
        · exact ⟨b, List.mem_cons_of_mem _ h1, rfl, le_rfl⟩
      · exact ⟨e, List.mem_cons_self _ _, het, hecr⟩
    · simp only [ht, if_false]
      rcases hb with h | rfl
      · rcases List.mem_cons.mp h with rfl | h1
        · exact ⟨b, List.mem_cons_self _ _, rfl, le_rfl⟩
        · obtain ⟨b2, hb2, hprop⟩ := ih b (Or.inl h1)
          exact ⟨b2, List.mem_cons_of_mem _ hb2, hprop⟩
      · obtain ⟨b2, hb2, hprop⟩ := ih b (Or.inr rfl)
        exact ⟨b2, List.mem_cons_of_mem _ hb2, hprop⟩

theorem insertResult_nodupKeys (r : TextBlock) (acc : List TextBlock)
    (h : (acc.map (fun b => b.text)).Nodup) :
    ((insertResult r acc).map (fun b => b.text)).Nodup := by
  induction acc with
  | nil => simp [insertResult]
  | cons b0 rest ih =>
    rw [List.map_cons, List.nodup_cons] at h
    obtain ⟨hnotin, hnodup⟩ := h
    unfold insertResult
    by_cases ht : b0.text = r.text
    · simp only [ht, if_true]
      have : (if b0.confidence < r.confidence then r else b0).text = b0.text := by
        by_cases hc : b0.confidence < r.confidence
        · simp [hc, ht]
        · simp [hc]
      rw [List.map_cons, List.nodup_cons, this]
      exact ⟨hnotin, hnodup⟩
    · simp only [ht, if_false]
      rw [List.map_cons, List.nodup_cons]
      refine ⟨?_, ih hnodup⟩
      intro hmem
      obtain ⟨b2, hb2, heq⟩ := List.mem_map.mp hmem
      rcases insertResult_mem r rest b2 hb2 with h2 | rfl
      · exact hnotin (List.mem_map.mpr ⟨b2, h2, heq⟩)
      · exact ht heq.symm

theorem foldl_insertResult_nodupKeys (l : List TextBlock) (acc : List TextBlock)
    (h : (acc.map (fun b => b.text)).Nodup) :
    (((l.foldl (fun a r => insertResult r a) acc)).map (fun b => b.text)).Nodup := by
  induction l generalizing acc with
  | nil => exact h
  | cons r l2 ih => exact ih _ (insertResult_nodupKeys r acc h)

theorem foldl_insertResult_isBest (l : List TextBlock) (acc : List TextBlock)
    (hnd : (acc.map (fun b => b.text)).Nodup) (t : String) (c : ℚ) :
    (t, c) ∈ pairSet (l.foldl (fun a r => insertResult r a) acc) ↔
      IsBest (acc ++ l) t c := by
  induction l generalizing acc with
  | nil =>
    rw [List.foldl_nil, List.append_nil, mem_pairSet]
    constructor
    · rintro ⟨b, hb, hbt, hbc⟩
      refine ⟨⟨b, hb, hbt, hbc⟩, ?_⟩
      intro b2 hb2 ht2
      have : b2 = b := List.inj_on_of_nodup_map hnd hb2 hb (ht2.trans hbt.symm)
      rw [this, hbc]
    · rintro ⟨⟨b, hb, hprop⟩, hub⟩
      exact ⟨b, hb, hprop⟩
  | cons r l2 ih =>
    rw [List.foldl_cons, ih _ (insertResult_nodupKeys r acc hnd)]
    have hXY : ∀ b ∈ insertResult r acc, ∃ b2 ∈ acc ++ [r],
        b2.text = b.text ∧ b.confidence ≤ b2.confidence := by
      intro b hb
      rcases insertResult_mem r acc b hb with h2 | rfl
      · exact ⟨b, List.mem_append_left _ h2, rfl, le_rfl⟩
      · exact ⟨b, List.mem_append_right _ (List.mem_singleton_self _), rfl, le_rfl⟩
    have hYX : ∀ b ∈ acc ++ [r], ∃ b2 ∈ insertResult r acc,
        b2.text = b.text ∧ b.confidence ≤ b2.confidence := by
      intro b hb
      refine insertResult_dominates r acc b ?_
      rcases List.mem_append.mp hb with h2 | h2
      · exact Or.inl h2
      · exact Or.inr (List.mem_singleton.mp h2)
    rw [isBest_append_congr (insertResult r acc) (acc ++ [r]) l2 hXY hYX t c]
    rw [List.append_assoc]
    rfl

theorem mergeResults_isBest (l : List TextBlock) (t : String) (c : ℚ) :
    (t, c) ∈ pairSet (mergeResults l) ↔ IsBest l t c := by
  unfold mergeResults
  rw [foldl_insertResult_isBest l [] (by simp) t c, List.nil_append]

theorem mergeResults_nodupKeys (l : List TextBlock) :
    ((mergeResults l).map (fun b => b.text)).Nodup :=
  foldl_insertResult_nodupKeys l [] (by simp)

theorem exists_isBest (l : List TextBlock) (t : String)
    (h : ∃ b ∈ l, b.text = t) : ∃ c, IsBest l t c := by
  induction l with
  | nil =>
    obtain ⟨b, hb, hbt⟩ := h
    cases hb
  | cons b0 rest ih =>
    by_cases hrest : ∃ b ∈ rest, b.text = t
    · obtain ⟨c, ⟨hex, hub⟩⟩ := ih hrest
      by_cases ht : b0.text = t
      · refine ⟨max c b0.confidence, ?_, ?_⟩
        · rcases le_total c b0.confidence with hle | hle
          · exact ⟨b0, List.mem_cons_self _ _, ht, (max_eq_right hle).symm⟩
          · obtain ⟨b, hb, hbt, hbc⟩ := hex
            exact ⟨b, List.mem_cons_of_mem _ hb, hbt, by rw [max_eq_left hle, hbc]⟩
        · intro b hb hbt
          rcases List.mem_cons.mp hb with rfl | h2
          · exact le_max_right _ _
          · exact le_trans (hub b h2 hbt) (le_max_left _ _)
      · obtain ⟨b, hb, hbt, hbc⟩ := hex
        refine ⟨c, ⟨b, List.mem_cons_of_mem _ hb, hbt, hbc⟩, ?_⟩
        intro b2 hb2 ht2
        rcases List.mem_cons.mp hb2 with rfl | h2
        · exact absurd ht2 ht
        · exact hub b2 h2 ht2
    · obtain ⟨b, hb, hbt⟩ := h
      rcases List.mem_cons.mp hb with rfl | h2
      · refine ⟨b.confidence, ⟨b, List.mem_cons_self _ _, hbt, rfl⟩, ?_⟩
        intro b2 hb2 ht2
        rcases List.mem_cons.mp hb2 with rfl | h3
        · exact le_rfl
        · exact absurd ⟨b2, h3, ht2⟩ hrest
      · exact absurd ⟨b, h2, hbt⟩ hrest

theorem mergeResults_subset (l : List TextBlock) : ∀ b ∈ mergeResults l, b ∈ l := by
  have haux : ∀ (l2 acc : List TextBlock) b,
      b ∈ l2.foldl (fun a r => insertResult r a) acc → b ∈ acc ∨ b ∈ l2 := by
    intro l2
    induction l2 with
    | nil => intro acc b hb; exact Or.inl hb
    | cons r l3 ih =>
      intro acc b hb
      rw [List.foldl_cons] at hb
      rcases ih _ b hb with h2 | h2
      · rcases insertResult_mem r acc b h2 with h3 | rfl
        · exact Or.inl h3
        · exact Or.inr (List.mem_cons_self _ _)
      · exact Or.inr (List.mem_cons_of_mem _ h2)
  intro b hb
  rcases haux l [] b hb with h | h
  · cases h
  · exact h

theorem mergeResults_dominates (l : List TextBlock) :
    ∀ b ∈ l, ∃ b2 ∈ mergeResults l, b2.text = b.text ∧ b.confidence ≤ b2.confidence := by
  intro b hb
  obtain ⟨c, hbest⟩ := exists_isBest l b.text ⟨b, hb, rfl⟩
  obtain ⟨b2, hb2, hbt, hbc⟩ := (mem_pairSet _ _ _).mp
    ((mergeResults_isBest l b.text c).mpr hbest)
  exact ⟨b2, hb2, hbt, by rw [hbc]; exact hbest.2 b hb rfl⟩

theorem mergeResults_append_isBest (l1 l2 : List TextBlock) (t : String) (c : ℚ) :
    IsBest (mergeResults l1 ++ mergeResults l2) t c ↔ IsBest (l1 ++ l2) t c := by
  rw [isBest_append_congr (mergeResults l1) l1 (mergeResults l2)
    (fun b hb => ⟨b, mergeResults_subset l1 b hb, rfl, le_rfl⟩)
    (mergeResults_dominates l1) t c]
  rw [isBest_perm (@List.perm_append_comm _ l1 (mergeResults l2)) t c]
  rw [isBest_append_congr (mergeResults l2) l2 l1
    (fun b hb => ⟨b, mergeResults_subset l2 b hb, rfl, le_rfl⟩)
    (mergeResults_dominates l2) t c]
  rw [isBest_perm (@List.perm_append_comm _ l2 l1) t c]

/-! Lemmas for the fixed-point behaviour of `clean_text` on reconstructed
paragraph output. -/

theorem joinWith_append (sep : List Char) (A B : List (List Char))
    (hA : A ≠ []) (hB : B ≠ []) :
    joinWith sep (A ++ B) = joinWith sep A ++ sep ++ joinWith sep B := by
  induction A with
  | nil => exact absurd rfl hA
  | cons a A2 ih =>
    cases A2 with
    | nil =>
      cases B with
      | nil => exact absurd rfl hB
      | cons b B2 => simp [joinWith]
    | cons a2 A3 =>
      have h2 : (a2 :: A3 ++ B : List (List Char)) ≠ [] := by simp
      have hstep : joinWith sep ((a :: a2 :: A3) ++ B) =
          a ++ sep ++ joinWith sep ((a2 :: A3) ++ B) := by
        simp [joinWith]
      rw [hstep, ih (List.cons_ne_nil _ _)]
      have hstep2 : joinWith sep (a :: a2 :: A3) = a ++ sep ++ joinWith sep (a2 :: A3) := rfl
      rw [hstep2]
      simp [List.append_assoc]

theorem flatten_ne_nil (tss : List (List (List Char))) (hne : tss ≠ [])
    (h : ∀ ts ∈ tss, ts ≠ []) : tss.flatten ≠ [] := by
  cases tss with
  | nil => exact absurd rfl hne
  | cons ts rest =>
    rw [List.flatten_cons]
    exact List.append_ne_nil_of_left_ne_nil (h ts (List.mem_cons_self _ _)) _

theorem joinWith_flatten (tss : List (List (List Char)))
    (h : ∀ ts ∈ tss, ts ≠ []) :
    joinWith [' '] (tss.map (joinWith [' '])) = joinWith [' '] tss.flatten := by
  induction tss with
  | nil => rfl
  | cons ts rest ih =>
    cases rest with
    | nil => simp [joinWith]
    | cons ts2 rest2 =>
      have hts : ts ≠ [] := h ts (List.mem_cons_self _ _)
      have hrest : ∀ u ∈ (ts2 :: rest2 : List (List (List Char))), u ≠ [] :=
        fun u hu => h u (List.mem_cons_of_mem _ hu)
      have hflat : (ts2 :: rest2 : List (List (List Char))).flatten ≠ [] :=
        flatten_ne_nil _ (List.cons_ne_nil _ _) hrest
      have hmap : joinWith [' '] ((ts :: ts2 :: rest2).map (joinWith [' '])) =
          joinWith [' '] ts ++ [' '] ++
            joinWith [' '] ((ts2 :: rest2).map (joinWith [' '])) := by
        simp [joinWith]
      rw [hmap, ih hrest,
        show (ts :: ts2 :: rest2 : List (List (List Char))).flatten =
          ts ++ (ts2 :: rest2).flatten from rfl,
        joinWith_append [' '] ts _ hts hflat]

theorem chainCore_of_chain (b : TextBlock) (rest : List TextBlock)
    (h : List.Chain' (fun a b2 => |b2.y_center - a.y_center| ≤ 30) (b :: rest)) :
    chainCore b rest = (rest, []) := by
  induction rest generalizing b with
  | nil => rfl
  | cons c rest2 ih =>
    obtain ⟨hrel, hchain⟩ := List.chain'_cons.mp h
    have hgap : ¬30 < |c.y_center - b.y_center| := not_lt.mpr hrel
    unfold chainCore
    simp only [hgap, if_false]
    rw [ih c hchain]

theorem formatTextStructure_single_group (b : TextBlock) (rest : List TextBlock)
    (h : List.Chain' (fun a b2 => |b2.y_center - a.y_center| ≤ 30) (b :: rest)) :
    formatTextStructure (b :: rest) =
      pyStrip (joinStr " " ((b :: rest).map (fun x => cleanText x.text))) := by
  rw [formatTextStructure_eq_spec]
  unfold paragraphsSpec
  rw [show chainGroups (b :: rest) =
      (b :: (chainCore b rest).1) :: (chainCore b rest).2 from rfl,
    chainCore_of_chain b rest h]
  rfl

theorem cleanText_pyStrip_joinStr (ss : List String) (hne : ss ≠ [])
    (h : ∀ s ∈ ss, splitWS s.data ≠ [] ∧ s.data = joinWith [' '] (splitWS s.data)) :
    cleanText (pyStrip (joinStr " " ss)) = pyStrip (joinStr " " ss) := by
  have hmapeq : ss.map String.data =
      (ss.map (fun s => splitWS s.data)).map (joinWith [' ']) := by
    rw [List.map_map]
    exact List.map_congr_left (fun s hs => (h s hs).2)
  have hne2 : ∀ ts ∈ ss.map (fun s => splitWS s.data), ts ≠ [] := by
    intro ts hts
    obtain ⟨s, hs, rfl⟩ := List.mem_map.mp hts
    exact (h s hs).1
  have hflat_facts : ∀ t ∈ (ss.map (fun s => splitWS s.data)).flatten,
      t ≠ [] ∧ ∀ d ∈ t, d.isWhitespace = false := by
    intro t ht
    obtain ⟨ts, hts, htmem⟩ := List.mem_flatten.mp ht
    obtain ⟨s, hs, rfl⟩ := List.mem_map.mp hts
    exact splitWS_non_ws s.data t htmem
  have hflat_ne : (ss.map (fun s => splitWS s.data)).flatten ≠ [] := by
    refine flatten_ne_nil _ ?_ hne2
    intro hmap
    rw [List.map_eq_nil_iff] at hmap
    exact hne hmap
  have hjoin : (joinStr " " ss).data =
      joinWith [' '] (ss.map (fun s => splitWS s.data)).flatten := by
    rw [joinStr_data,
      show (" " : String).data = [' '] from rfl, hmapeq,
      joinWith_flatten _ hne2]
  have hstrip : (pyStrip (joinStr " " ss)).data = (joinStr " " ss).data := by
    show stripChars (joinStr " " ss).data = (joinStr " " ss).data
    rw [hjoin]
    exact stripChars_joinWith _ hflat_ne hflat_facts
  refine data_inj ?_
  rw [cleanText_data]
  show cleanChars (pyStrip (joinStr " " ss)).data = _
  rw [hstrip, hjoin]
  unfold cleanChars
  rw [splitWS_join _ hflat_ne hflat_facts,
    stripChars_joinWith _ hflat_ne hflat_facts]

theorem bucket_partition (blocks : List TextBlock) :
    blocks.countP (fun b => decide ((0.8 : ℚ) < b.confidence)) +
      blocks.countP (fun b => decide ((0.5 : ℚ) ≤ b.confidence ∧ b.confidence ≤ (0.8 : ℚ))) +
      blocks.countP (fun b => decide (b.confidence < (0.5 : ℚ))) = blocks.length := by
  induction blocks with
  | nil => rfl
  | cons b rest ih =>
    simp only [List.countP_cons, List.length_cons]
    by_cases h1 : (0.8 : ℚ) < b.confidence
    · have h2 : ¬((0.5 : ℚ) ≤ b.confidence ∧ b.confidence ≤ (0.8 : ℚ)) :=
        fun hx => absurd h1 (not_lt.mpr hx.2)
      have h3 : ¬(b.confidence < (0.5 : ℚ)) :=
        not_lt.mpr (le_trans (by norm_num) (le_of_lt h1))
      simp only [decide_eq_false h2, decide_eq_false h3, decide_eq_true h1,
        Bool.false_eq_true, if_false, if_true]
      omega
    · by_cases h3 : b.confidence < (0.5 : ℚ)
      · have h2 : ¬((0.5 : ℚ) ≤ b.confidence ∧ b.confidence ≤ (0.8 : ℚ)) :=
          fun hx => absurd h3 (not_lt.mpr hx.1)
        simp only [decide_eq_false h1, decide_eq_false h2, decide_eq_true h3,
          Bool.false_eq_true, if_false, if_true]
        omega
      · have h2 : (0.5 : ℚ) ≤ b.confidence ∧ b.confidence ≤ (0.8 : ℚ) :=
          ⟨not_lt.mp h3, not_lt.mp h1⟩
        simp only [decide_eq_false h1, decide_eq_false h3, decide_eq_true h2,
          Bool.false_eq_true, if_false, if_true]
        omega

/-! The claim theorems. -/

/-- C1: paragraph reconstruction scans the fragments in order and starts a new
paragraph exactly when the absolute gap between consecutive `y_center` values
is strictly greater than 30 (the spec grouping `chainGroups`); paragraphs are
the cleaned texts joined by single spaces, consecutive paragraphs are
separated by a blank line, and the result is trimmed.  Fragments at y_centers
10, 15, 50, 55 give exactly the two paragraphs (frag1 frag2) and
(frag3 frag4); the empty list gives the empty string; a single fragment gives
just its cleaned text. -/
theorem claim_C1 :
    (∀ blocks : List TextBlock,
      formatTextStructure blocks = pyStrip (joinStr "\n\n" (paragraphsSpec blocks))) ∧
    chainGroups [⟨"frag1", 0, 10, 1⟩, ⟨"frag2", 0, 15, 1⟩,
        ⟨"frag3", 0, 50, 1⟩, ⟨"frag4", 0, 55, 1⟩] =
      [[⟨"frag1", 0, 10, 1⟩, ⟨"frag2", 0, 15, 1⟩],
        [⟨"frag3", 0, 50, 1⟩, ⟨"frag4", 0, 55, 1⟩]] ∧
    formatTextStructure [⟨"frag1", 0, 10, 1⟩, ⟨"frag2", 0, 15, 1⟩,
        ⟨"frag3", 0, 50, 1⟩, ⟨"frag4", 0, 55, 1⟩] = "frag1 frag2\n\nfrag3 frag4" ∧
    formatTextStructure [] = "" ∧
    ∀ b : TextBlock, formatTextStructure [b] = cleanText b.text := by
  refine ⟨formatTextStructure_eq_spec, by decide, by decide, rfl, ?_⟩
  intro b
  rw [formatTextStructure_eq_spec]
  exact pyStrip_cleanText b.text

/-- C2: the row clustering of `_detect_tables` equals the spec-style greedy
clustering: a fragment joins the current row iff the row is empty or its
`y_center` is strictly within 20 of the row reference, the reference is fixed
to the row's first fragment, a non-matching fragment closes the row (sorted
by `x_center` ascending) and opens a new one, and the final row is closed the
same way. -/
theorem claim_C2 : ∀ blocks : List TextBlock, clusterRows blocks = clusterRowsSpec blocks :=
  clusterRows_eq_spec

/-- C3: table assembly keeps exactly the closed rows with more than one
fragment, as cleaned cell texts in x-sorted order, and returns them iff more
than one row qualifies; the y = 10, 12, 14 example clusters into one 3-cell
row, so the overall result is empty. -/
theorem claim_C3 :
    (∀ blocks : List TextBlock,
      detectTables blocks =
        (if 1 < (((clusterRows blocks).filter (fun row => decide (1 < row.length))).map
              (fun row => row.map (fun b => cleanText b.text))).length then
          ((clusterRows blocks).filter (fun row => decide (1 < row.length))).map
            (fun row => row.map (fun b => cleanText b.text))
        else [])) ∧
    clusterRows [⟨"c1", 5, 10, 1⟩, ⟨"c2", 50, 12, 1⟩, ⟨"c3", 100, 14, 1⟩] =
      [[⟨"c1", 5, 10, 1⟩, ⟨"c2", 50, 12, 1⟩, ⟨"c3", 100, 14, 1⟩]] ∧
    detectTables [⟨"c1", 5, 10, 1⟩, ⟨"c2", 50, 12, 1⟩, ⟨"c3", 100, 14, 1⟩] = [] := by
  refine ⟨?_, by decide, by decide⟩
  intro blocks
  simp only [detectTables]
  rw [foldl_tables_filter (clusterRows blocks) [], List.nil_append]

/-- C4 counterexample: the claim fails as stated.  Two fragments 40 pixels
apart give the two-paragraph output joined by a blank line, and `clean_text`
collapses the blank line to a single space, so the output is not a fixed
point of `clean_text`. -/
theorem claim_C4_counterexample :
    ¬ (cleanText (formatTextStructure [⟨"a", 0, 10, 1⟩, ⟨"b", 0, 50, 1⟩]) =
      formatTextStructure [⟨"a", 0, 10, 1⟩, ⟨"b", 0, 50, 1⟩]) := by decide

/-- C4 (amended): for every fragment sequence whose consecutive `y_center`
gaps are all at most 30 (so reconstruction yields a single paragraph and no
blank-line separator appears) and whose fragments all have non-empty cleaned
text, the reconstructed output is a fixed point of `clean_text`. -/
theorem claim_C4_amended (blocks : List TextBlock)
    (hchain : List.Chain' (fun a b2 => |b2.y_center - a.y_center| ≤ 30) blocks)
    (hne : ∀ b ∈ blocks, cleanText b.text ≠ "") :
    cleanText (formatTextStructure blocks) = formatTextStructure blocks := by
  cases blocks with
  | nil => rfl
  | cons b rest =>
    rw [formatTextStructure_single_group b rest hchain]
    refine cleanText_pyStrip_joinStr _ (by simp) ?_
    intro s hs
    obtain ⟨x, hx, rfl⟩ := List.mem_map.mp hs
    have hx2 : cleanText x.text ≠ "" := hne x hx
    have hsp : splitWS x.text.data ≠ [] := splitWS_ne_nil_of_cleanText_ne _ hx2
    have hdata : (cleanText x.text).data = joinWith [' '] (splitWS x.text.data) := by
      rw [cleanText_data, cleanChars_eq_join _ hsp]
    have hsws : splitWS (cleanText x.text).data = splitWS x.text.data := by
      rw [hdata, splitWS_join _ hsp (splitWS_non_ws _)]
    constructor
    · rw [hsws]; exact hsp
    · rw [hsws, hdata]

/-- C4 witness: the amended statement applied to two one-word fragments only
10 pixels apart. -/
theorem claim_C4_witness :
    List.Chain' (fun a b2 => |b2.y_center - a.y_center| ≤ 30)
        [(⟨"a", 0, 10, 1⟩ : TextBlock), ⟨"b", 0, 20, 1⟩] ∧
    (∀ b ∈ [(⟨"a", 0, 10, 1⟩ : TextBlock), ⟨"b", 0, 20, 1⟩], cleanText b.text ≠ "") ∧
    cleanText (formatTextStructure [⟨"a", 0, 10, 1⟩, ⟨"b", 0, 20, 1⟩]) =
      formatTextStructure [⟨"a", 0, 10, 1⟩, ⟨"b", 0, 20, 1⟩] := by
  have hchain : List.Chain' (fun a b2 => |b2.y_center - a.y_center| ≤ 30)
      [(⟨"a", 0, 10, 1⟩ : TextBlock), ⟨"b", 0, 20, 1⟩] :=
    List.chain'_cons.mpr ⟨by decide, List.chain'_singleton _⟩
  have hne : ∀ b ∈ [(⟨"a", 0, 10, 1⟩ : TextBlock), ⟨"b", 0, 20, 1⟩],
      cleanText b.text ≠ "" := by decide
  exact ⟨hchain, hne, claim_C4_amended _ hchain hne⟩

/-- C5: on an empty extracted fragment list, `process_image` returns a result
with success false, a non-empty error string, and empty fragment list,
formatted text and table list, for either value of the `detect_tables`
flag. -/
theorem claim_C5 : ∀ d : Bool,
    (process_image [] d).success = false ∧
    (∃ e, (process_image [] d).error = some e ∧ e ≠ "") ∧
    (process_image [] d).text_blocks = [] ∧
    (process_image [] d).formatted_text = "" ∧
    (process_image [] d).tables = [] := by
  intro d
  exact ⟨rfl, ⟨"No text detected in image", rfl, by decide⟩, rfl, rfl, rfl⟩

/-- C6: on a non-empty fragment list, confidence aggregation reports the
arithmetic mean and counts a fragment as high exactly when its confidence is
strictly above 0.8, medium exactly when it lies in the closed interval from
0.5 to 0.8, low exactly when it is strictly below 0.5; the three buckets
partition the list.  Confidences 0.9, 0.6, 0.3 give counts 1, 1, 1 and mean
0.6. -/
theorem claim_C6 :
    (∀ blocks : List TextBlock, blocks ≠ [] →
      ∃ st, aggregateConfidence blocks = some st ∧
        st.mean_confidence = (blocks.map (fun b => b.confidence)).sum / (blocks.length : ℚ) ∧
        st.high_count = blocks.countP (fun b => decide ((0.8 : ℚ) < b.confidence)) ∧
        st.medium_count = blocks.countP
          (fun b => decide ((0.5 : ℚ) ≤ b.confidence ∧ b.confidence ≤ (0.8 : ℚ))) ∧
        st.low_count = blocks.countP (fun b => decide (b.confidence < (0.5 : ℚ))) ∧
        st.high_count + st.medium_count + st.low_count = blocks.length) ∧
    aggregateConfidence [⟨"a", 0, 0, 0.9⟩, ⟨"b", 0, 0, 0.6⟩, ⟨"c", 0, 0, 0.3⟩] =
      some { mean_confidence := 0.6, high_count := 1, medium_count := 1, low_count := 1 } := by
  constructor
  · intro blocks h
    have hb : blocks.isEmpty = false := by
      cases blocks with
      | nil => exact absurd rfl h
      | cons x xs => rfl
    refine ⟨ConfStats.mk ((blocks.map (fun b => b.confidence)).sum / (blocks.length : ℚ))
        (blocks.countP (fun b => decide ((0.8 : ℚ) < b.confidence)))
        (blocks.countP (fun b => decide ((0.5 : ℚ) ≤ b.confidence ∧ b.confidence ≤ (0.8 : ℚ))))
        (blocks.countP (fun b => decide (b.confidence < (0.5 : ℚ)))),
      ?_, rfl, rfl, rfl, rfl, bucket_partition blocks⟩
    simp [aggregateConfidence, hb]
  · simp only [aggregateConfidence, List.isEmpty_cons, List.map_cons, List.map_nil,
      List.sum_cons, List.sum_nil, List.length_cons, List.length_nil,
      List.countP_cons, List.countP_nil]
    norm_num

/-- C6 witness: the aggregation theorem applied to a concrete singleton
fragment list. -/
theorem claim_C6_witness :
    ([(⟨"a", 0, 0, 1⟩ : TextBlock)] ≠ []) ∧
    ∃ st, aggregateConfidence [(⟨"a", 0, 0, 1⟩ : TextBlock)] = some st ∧
      st.mean_confidence =
        (([(⟨"a", 0, 0, 1⟩ : TextBlock)]).map (fun b => b.confidence)).sum /
          ((([(⟨"a", 0, 0, 1⟩ : TextBlock)]).length : ℚ)) ∧
      st.high_count = ([(⟨"a", 0, 0, 1⟩ : TextBlock)]).countP
        (fun b => decide ((0.8 : ℚ) < b.confidence)) ∧
      st.medium_count = ([(⟨"a", 0, 0, 1⟩ : TextBlock)]).countP
        (fun b => decide ((0.5 : ℚ) ≤ b.confidence ∧ b.confidence ≤ (0.8 : ℚ))) ∧
      st.low_count = ([(⟨"a", 0, 0, 1⟩ : TextBlock)]).countP
        (fun b => decide (b.confidence < (0.5 : ℚ))) ∧
      st.high_count + st.medium_count + st.low_count =
        ([(⟨"a", 0, 0, 1⟩ : TextBlock)]).length := by
  have h : [(⟨"a", 0, 0, 1⟩ : TextBlock)] ≠ [] := List.cons_ne_nil _ _
  exact ⟨h, claim_C6.1 [⟨"a", 0, 0, 1⟩] h⟩

/-- C7: on the empty fragment list the aggregator returns before the mean is
computed (the embedding returns `none` without forming the division). -/
theorem claim_C7 : aggregateConfidence [] = none := rfl

/-- C8: on a non-empty fragment list, `process_image` always computes the
paragraph reconstruction, computes the table reconstruction iff the
`detect_tables` flag is set (empty table list when the flag is false), and
all other result fields do not depend on the flag. -/
theorem claim_C8 (blocks : List TextBlock) (h : blocks ≠ []) :
    (∀ d : Bool, (process_image blocks d).formatted_text = formatTextStructure blocks) ∧
    (process_image blocks true).tables = detectTables blocks ∧
    (process_image blocks false).tables = [] ∧
    (∀ d : Bool, (process_image blocks d).text_blocks = blocks ∧
      (process_image blocks d).success = true ∧
      (process_image blocks d).error = none) := by
  have hb : blocks.isEmpty = false := by
    cases blocks with
    | nil => exact absurd rfl h
    | cons x xs => rfl
  simp [process_image, hb]

/-- C8 witness: the flag theorem applied to a concrete singleton fragment
list. -/
theorem claim_C8_witness :
    ([(⟨"hi", 0, 0, 1⟩ : TextBlock)] ≠ []) ∧
    (process_image [(⟨"hi", 0, 0, 1⟩ : TextBlock)] false).tables = [] := by
  have h : [(⟨"hi", 0, 0, 1⟩ : TextBlock)] ≠ [] := List.cons_ne_nil _ _
  exact ⟨h, (claim_C8 _ h).2.2.1⟩

/-- C9: the multi-attempt merge keeps, for each text, exactly the highest
attained confidence (the `IsBest` characterization), and at the level of
(text, confidence) sets it is commutative (invariant under permutation of
the result list) and associative (merging the merged halves of a split
equals merging the concatenation). -/
theorem claim_C9 :
    (∀ (l : List TextBlock) (t : String) (c : ℚ),
      (t, c) ∈ pairSet (mergeResults l) ↔ IsBest l t c) ∧
    (∀ l1 l2 : List TextBlock, l1.Perm l2 →
      pairSet (mergeResults l1) = pairSet (mergeResults l2)) ∧
    (∀ l1 l2 : List TextBlock,
      pairSet (mergeResults (mergeResults l1 ++ mergeResults l2)) =
        pairSet (mergeResults (l1 ++ l2))) := by
  refine ⟨mergeResults_isBest, ?_, ?_⟩
  · intro l1 l2 h
    apply Finset.ext
    intro p
    cases p with
    | mk t c =>
      rw [mergeResults_isBest, mergeResults_isBest]
      exact isBest_perm h t c
  · intro l1 l2
    apply Finset.ext
    intro p
    cases p with
    | mk t c =>
      rw [mergeResults_isBest, mergeResults_isBest]
      exact mergeResults_append_isBest l1 l2 t c

/-- C9 witness: permutation invariance of the merge on a concrete two-element
swap. -/
theorem claim_C9_witness :
    (([(⟨"a", 0, 0, 1⟩ : TextBlock), ⟨"b", 0, 0, 2⟩]).Perm
      [(⟨"b", 0, 0, 2⟩ : TextBlock), ⟨"a", 0, 0, 1⟩]) ∧
    pairSet (mergeResults [(⟨"a", 0, 0, 1⟩ : TextBlock), ⟨"b", 0, 0, 2⟩]) =
      pairSet (mergeResults [(⟨"b", 0, 0, 2⟩ : TextBlock), ⟨"a", 0, 0, 1⟩]) := by
  have h : (([(⟨"a", 0, 0, 1⟩ : TextBlock), ⟨"b", 0, 0, 2⟩]).Perm
      [(⟨"b", 0, 0, 2⟩ : TextBlock), ⟨"a", 0, 0, 1⟩]) :=
    List.Perm.swap (⟨"b", 0, 0, 2⟩ : TextBlock) (⟨"a", 0, 0, 1⟩ : TextBlock) []
  exact ⟨h, claim_C9.2.1 _ _ h⟩

/-- C10: row clustering partitions its input: the concatenation of all closed
rows is a permutation of the input fragment list, so no fragment is dropped
or duplicated by the clustering phase. -/
theorem claim_C10 : ∀ blocks : List TextBlock,
    ((clusterRows blocks).flatten).Perm blocks :=
  clusterRows_flatten_perm

end OcrApp
